import Mathlib

/-!
Verification of the two-channel square-wave synthesizer (`gb.py` / `2gb.py`).

The two scripts share identical oscillator, render-callback, and flush code;
they differ only in the keyboard-event handlers, so both handler variants are
embedded (`handle_key_event` from `gb.py`, `on_press` / `on_release` from
`2gb.py`).

The Python code computes with IEEE floats; the embedding idealises that
arithmetic as exact rationals.  Phase is measured in cycles rather than
radians: every phase quantity of the source is divided by `2π`, which turns
`x mod 2π` into `Int.fract` (both numpy `%` and `Int.fract` return a value in
`[0, modulus)` for any sign of the argument), the source's comparison
`phases < π` into `< 1/2`, and the source's phase increment
`frequency * 2π / SAMPLE_RATE` into `frequency / SAMPLE_RATE`.  This
rescaling is exact: it is a bijection of the real-arithmetic semantics of the
source, applied uniformly to phase, increment, and the two comparison
constants.
-/

namespace GB

/-- `SAMPLE_RATE = 44100` (`gb.py` line 30). -/
def SAMPLE_RATE : ℕ := 44100

/-- `AMPLITUDE = 0.5` (`gb.py` line 31). -/
def AMPLITUDE : ℚ := 0.5

/-- A note map: association list from key name to frequency in Hz. -/
abbrev NoteMap := List (String × ℚ)

/-- `CHANNEL1_NOTES` (`gb.py` lines 9-17). -/
def CHANNEL1_NOTES : NoteMap :=
  [("a", 261.63), ("s", 293.66), ("d", 329.63), ("f", 349.23),
   ("g", 392.00), ("h", 440.00), ("j", 493.88)]

/-- `CHANNEL2_NOTES` (`gb.py` lines 19-27). -/
def CHANNEL2_NOTES : NoteMap :=
  [("z", 523.25), ("x", 587.33), ("c", 659.26), ("v", 698.46),
   ("b", 783.99), ("n", 880.00), ("m", 987.77)]

/-- Dictionary lookup `notes_dict.get(key)` on an association list. -/
def lookupNote (notes : NoteMap) (key : String) : Option ℚ :=
  notes.lookup key

/-- `ChannelState` (`gb.py` lines 36-41): the three data fields guarded by the
channel's lock.  The lock itself has no pure content; the embedding treats
each handler / callback body as one atomic state transformation, which is
exactly what the per-channel lock enforces in the source. -/
structure ChannelState where
  active : Bool
  frequency : ℚ
  phase : ℚ
deriving Repr, DecidableEq

/-- Initial channel state (`ChannelState.__init__`). -/
def ChannelState.init : ChannelState := ⟨false, 0, 0⟩

/-- Whole-system mutable state: the two channels, the capture buffer
`WAV_BUFFER`, and `QUIT_FLAG`. -/
structure SysState where
  ch1 : ChannelState
  ch2 : ChannelState
  wav_buffer : List ℚ
  quit_flag : Bool
deriving Repr, DecidableEq

/-- `phase_increment = (frequency * 2 * np.pi) / SAMPLE_RATE` (`gb.py`
line 47), in cycles: the radian value divided by `2π`. -/
def phase_increment (frequency : ℚ) : ℚ :=
  frequency / SAMPLE_RATE

/-- Sample `i` of `generate_square_wave` (`gb.py` lines 48-49):
`np.where(phases < np.pi, AMPLITUDE, -AMPLITUDE)` with
`phases = (phase + i * phase_increment) % (2π)`, in cycles. -/
def squareSample (frequency phase : ℚ) (i : ℕ) : ℚ :=
  if Int.fract (phase + i * phase_increment frequency) < 1/2 then AMPLITUDE else -AMPLITUDE

/-- `generate_square_wave(frequency, phase, n_samples)` (`gb.py` lines 46-51):
returns the block of samples and `new_phase = (phase + n·Δ) mod 2π`
(in cycles: `Int.fract`). -/
def generate_square_wave (frequency phase : ℚ) (n_samples : ℕ) : List ℚ × ℚ :=
  ((List.range n_samples).map (squareSample frequency phase),
   Int.fract (phase + n_samples * phase_increment frequency))

/-- `np.clip(x, -1.0, 1.0)` on one sample (`gb.py` line 76):
`min(max(x, -1), 1)`. -/
def clip (x : ℚ) : ℚ := min 1 (max (-1) x)

/-- One channel's pass inside `audio_callback` (`gb.py` lines 62-66 and
69-73): under the channel's lock, if `active` and `frequency > 0`, add the
oscillator block into `output` and store the returned phase; otherwise leave
both untouched. -/
def processChannel (frames : ℕ) (ch : ChannelState) (output : List ℚ) :
    List ℚ × ChannelState :=
  if ch.active = true ∧ 0 < ch.frequency then
    let r := generate_square_wave ch.frequency ch.phase frames
    (List.zipWith (· + ·) output r.1, { ch with phase := r.2 })
  else
    (output, ch)

/-- `audio_callback(outdata, frames, time, status)` (`gb.py` lines 53-80) as a
pure state transformation: returns the block written to `outdata` and the new
system state (updated phases, extended `WAV_BUFFER`). -/
def audio_callback (frames : ℕ) (s : SysState) : List ℚ × SysState :=
  let output0 : List ℚ := List.replicate frames 0
  let p1 := processChannel frames s.ch1 output0
  let p2 := processChannel frames s.ch2 p1.1
  let output := p2.1.map clip
  (output, { s with ch1 := p1.2, ch2 := p2.2, wav_buffer := s.wav_buffer ++ output })

/-- `event.event_type` values `'down'` / `'up'` of the `keyboard` library. -/
inductive EventType
  | down
  | up
deriving Repr, DecidableEq

/-- A `keyboard` library event: `event_type` and `name`. -/
structure KeyEvent where
  event_type : EventType
  name : String

/-- `handle_key_event(channel, notes_dict, event)` (`gb.py` lines 82-92),
acting on one channel's state. -/
def handle_key_event (notes : NoteMap) (ev : KeyEvent) (ch : ChannelState) :
    ChannelState :=
  match ev.event_type with
  | .down =>
    match lookupNote notes ev.name with
    | some freq => { ch with active := true, frequency := freq }
    | none => ch
  | .up =>
    if (lookupNote notes ev.name).isSome then { ch with active := false } else ch

/-- `key.char.lower()`: ASCII lowercasing, character by character (Python
`str.lower()` on the one-character strings delivered by `pynput`). -/
def lowerStr (s : String) : String := ⟨s.data.map Char.toLower⟩

/-- A `pynput` key as seen by `on_press` / `on_release` in `2gb.py`: either a
character key carrying `key.char`, or a key without a usable `char`
attribute (special keys), on which the handlers change no channel state. -/
inductive PKey
  | char (c : String)
  | nochar

/-- `on_press(key)` (`2gb.py` lines 83-107). -/
def on_press (k : PKey) (s : SysState) : SysState :=
  match k with
  | .char c =>
    let key_char := lowerStr c
    match lookupNote CHANNEL1_NOTES key_char with
    | some freq => { s with ch1 := { s.ch1 with active := true, frequency := freq } }
    | none =>
      match lookupNote CHANNEL2_NOTES key_char with
      | some freq => { s with ch2 := { s.ch2 with active := true, frequency := freq } }
      | none => if key_char = "q" then { s with quit_flag := true } else s
  | .nochar => s

/-- `on_release(key)` (`2gb.py` lines 109-127), state part (its Boolean
return value only stops the listener). -/
def on_release (k : PKey) (s : SysState) : SysState :=
  match k with
  | .char c =>
    let key_char := lowerStr c
    if (lookupNote CHANNEL1_NOTES key_char).isSome then
      { s with ch1 := { s.ch1 with active := false } }
    else if (lookupNote CHANNEL2_NOTES key_char).isSome then
      { s with ch2 := { s.ch2 with active := false } }
    else s
  | .nochar => s

/-- Truncation toward zero, the effect of numpy `.astype` on the integer part
of a finite value (C-style float-to-int conversion). -/
def truncInt (x : ℚ) : ℤ :=
  if 0 ≤ x then ⌊x⌋ else ⌈x⌉

/-- Wrapping an integer into the 16-bit signed range, the effect of
`.astype(np.int16)` on an integer value (two's-complement wraparound). -/
def toInt16 (z : ℤ) : ℤ :=
  (z + 32768) % 65536 - 32768

/-- The written WAV artifact: `wav.write('gameboy_audio.wav', SAMPLE_RATE,
audio_data)` with a 1-D (single-channel) `int16` array. -/
structure WavFile where
  rate : ℕ
  channels : ℕ
  data : List ℤ
deriving Repr, DecidableEq

/-- The shutdown flush (`gb.py` lines 124-131 / `2gb.py` lines 166-173): if
`WAV_BUFFER` is non-empty, clip, scale by 32767, convert to `int16`, and
write the mono file, reporting success; otherwise report that no data was
recorded and write nothing. -/
def flush (wav_buffer : List ℚ) : Option WavFile × String :=
  if wav_buffer.isEmpty then
    (none, "No audio data recorded")
  else
    (some ⟨SAMPLE_RATE, 1, wav_buffer.map (fun x => toInt16 (truncInt (clip x * 32767)))⟩,
     "Audio saved to gameboy_audio.wav")

/-- Rendering a sequence of blocks with the phase threaded through: each call
to `generate_square_wave` receives the `new_phase` returned by the previous
one, and the per-block sample lists are concatenated. -/
def render_blocks (f : ℚ) (phase : ℚ) : List ℕ → List ℚ × ℚ
  | [] => ([], phase)
  | n :: ns =>
    let r := generate_square_wave f phase n
    let rest := render_blocks f r.2 ns
    (r.1 ++ rest.1, rest.2)

/-- Folding `audio_callback` over a list of requested block lengths. -/
def run_callbacks (blocks : List ℕ) (s : SysState) : SysState :=
  blocks.foldl (fun st frames => (audio_callback frames st).2) s

/-- Number of samples of one `generate_square_wave` block equal to
`+AMPLITUDE`. -/
def count_high (f phase : ℚ) (n : ℕ) : ℕ :=
  (generate_square_wave f phase n).1.countP (fun x => decide (x = AMPLITUDE))

/-- Number of samples of one `generate_square_wave` block equal to
`-AMPLITUDE`. -/
def count_low (f phase : ℚ) (n : ℕ) : ℕ :=
  (generate_square_wave f phase n).1.countP (fun x => decide (x = -AMPLITUDE))

/-- Oscillator sample as the spec words it (§4.1), in cycles: output
`+0.5` when instantaneous phase `(phase + i·Δ) mod 2π` is below `π`
(normalised: fractional part below `1/2`), else `-0.5`, with
`Δ = 2π·frequency / 44100` (normalised: `frequency / 44100`). -/
def specOscSample (f phase : ℚ) (i : ℕ) : ℚ :=
  if Int.fract (phase + i * (f / 44100)) < 1/2 then 0.5 else -0.5

/-- New phase as the spec words it: `(phase + n·Δ) mod 2π`, normalised to
cycles. -/
def specOscNewPhase (f phase : ℚ) (n : ℕ) : ℚ :=
  Int.fract (phase + n * (f / 44100))

/-- Reducing a phase with `Int.fract` before adding an offset does not change
the final fractional part. -/
lemma fract_fract_add (a b : ℚ) : Int.fract (Int.fract a + b) = Int.fract (a + b) := by
  have h : Int.fract a + b = a + b - (⌊a⌋ : ℚ) := by
    unfold Int.fract
    ring
  rw [h, Int.fract_sub_int]

/-- Threading the phase returned after `k` samples into the oscillator
reproduces sample `k + i` of the unsplit stream. -/
lemma squareSample_shift (f phase : ℚ) (k i : ℕ) :
    squareSample f (Int.fract (phase + k * phase_increment f)) i =
      squareSample f phase (k + i) := by
  unfold squareSample
  have h : Int.fract (Int.fract (phase + k * phase_increment f) + i * phase_increment f) =
      Int.fract (phase + (k + i : ℕ) * phase_increment f) := by
    rw [fract_fract_add]
    push_cast
    ring_nf
  rw [h]

/-- The sample list of `generate_square_wave` is the image of `List.range`. -/
lemma generate_square_wave_fst (f phase : ℚ) (n : ℕ) :
    (generate_square_wave f phase n).1 = (List.range n).map (squareSample f phase) := rfl

/-- Concatenating phase-threaded blocks yields the samples of one big block. -/
lemma render_blocks_samples (f phase : ℚ) (ns : List ℕ) :
    (render_blocks f phase ns).1 = (generate_square_wave f phase ns.sum).1 := by
  induction ns generalizing phase with
  | nil => simp [render_blocks, generate_square_wave]
  | cons n ns ih =>
    show (generate_square_wave f phase n).1 ++
        (render_blocks f (generate_square_wave f phase n).2 ns).1 = _
    rw [ih]
    simp only [generate_square_wave_fst, List.sum_cons, List.range_add, List.map_append,
      List.map_map]
    congr 1
    apply List.map_congr_left
    intro i _
    exact squareSample_shift f phase n i

/-- C1.  Phase continuity: for every frequency `f > 0`, every starting phase,
and every way of splitting a total sample count into a sequence of block
renders with the returned `new_phase` of each call threaded into the next,
the concatenation of the per-block sample lists produced by
`generate_square_wave` equals, sample for sample, the list produced by a
single call rendering the same total count in one block. -/
theorem phase_continuity (f phase : ℚ) (ns : List ℕ) (hf : 0 < f) :
    (render_blocks f phase ns).1 = (generate_square_wave f phase ns.sum).1 :=
  render_blocks_samples f phase ns

/-- Witness for C1 at `f = 441`, `phase = 1/3`, blocks `[2, 3]`. -/
theorem phase_continuity_witness :
    (render_blocks 441 (1/3) [2, 3]).1 = (generate_square_wave 441 (1/3) ([2, 3].sum)).1 :=
  phase_continuity 441 (1/3) [2, 3] (by norm_num)

/-- C2.  Oscillator reference definition: for `f > 0` and `n > 0`,
`generate_square_wave` returns exactly `n` samples, sample `i` being
`+0.5` when `(phase + i·Δ) mod 2π < π` and `-0.5` otherwise with
`Δ = 2π·f / 44100` (stated in cycles via `specOscSample`), and
`new_phase = (phase + n·Δ) mod 2π`, which lies in `[0, 2π)` (in cycles:
`[0, 1)`). -/
theorem oscillator_reference (f phase : ℚ) (n : ℕ) (hf : 0 < f) (hn : 0 < n) :
    (generate_square_wave f phase n).1.length = n ∧
    (∀ i : ℕ, i < n →
      (generate_square_wave f phase n).1[i]? = some (specOscSample f phase i)) ∧
    (generate_square_wave f phase n).2 = specOscNewPhase f phase n ∧
    0 ≤ (generate_square_wave f phase n).2 ∧ (generate_square_wave f phase n).2 < 1 := by
  refine ⟨by simp [generate_square_wave], ?_, ?_, ?_, ?_⟩
  · intro i hi
    simp only [generate_square_wave_fst, List.getElem?_map, List.getElem?_range hi,
      Option.map_some]
    rfl
  · rfl
  · exact Int.fract_nonneg _
  · exact Int.fract_lt_one _

/-- Witness for C2 at `f = 441`, `phase = 1/3`, `n = 2`. -/
theorem oscillator_reference_witness :
    (generate_square_wave 441 (1/3) 2).1.length = 2 ∧
    (∀ i : ℕ, i < 2 →
      (generate_square_wave 441 (1/3) 2).1[i]? = some (specOscSample 441 (1/3) i)) ∧
    (generate_square_wave 441 (1/3) 2).2 = specOscNewPhase 441 (1/3) 2 ∧
    0 ≤ (generate_square_wave 441 (1/3) 2).2 ∧ (generate_square_wave 441 (1/3) 2).2 < 1 :=
  oscillator_reference 441 (1/3) 2 (by norm_num) (by norm_num)

/-- `clip` always lands in `[-1, 1]`. -/
lemma clip_bounds (x : ℚ) : -1 ≤ clip x ∧ clip x ≤ 1 := by
  unfold clip
  exact ⟨le_min (by norm_num) (le_max_left _ _), min_le_left _ _⟩

/-- `clip` fixes every value already in `[-1, 1]`. -/
lemma clip_eq_self {x : ℚ} (h1 : -1 ≤ x) (h2 : x ≤ 1) : clip x = x := by
  unfold clip
  rw [max_eq_right h1, min_eq_right h2]

/-- C5.  Clipping invariant and idempotence: `clip (clip x) = clip x` for
every `x`; in every render-callback invocation, every sample of the output
block lies in `[-1, 1]`, and the capture buffer is extended exactly by that
clipped output block (so every appended sample lies in `[-1, 1]` as well),
for all channel states. -/
theorem clipping_invariant :
    (∀ x : ℚ, clip (clip x) = clip x) ∧
    (∀ (frames : ℕ) (s : SysState), ∀ y ∈ (audio_callback frames s).1, -1 ≤ y ∧ y ≤ 1) ∧
    (∀ (frames : ℕ) (s : SysState),
      (audio_callback frames s).2.wav_buffer = s.wav_buffer ++ (audio_callback frames s).1) := by
  refine ⟨fun x => clip_eq_self (clip_bounds (x := x)).1 (clip_bounds (x := x)).2, ?_, ?_⟩
  · intro frames s y hy
    have : ∃ x, clip x = y := by
      simp only [audio_callback, List.mem_map] at hy
      obtain ⟨x, _, hx⟩ := hy
      exact ⟨x, hx⟩
    obtain ⟨x, hx⟩ := this
    rw [← hx]
    exact clip_bounds x
  · intro frames s
    rfl

/-- Witness for C5: idempotence at `x = 2`, and membership of the one sample
of a silent one-frame block. -/
theorem clipping_invariant_witness :
    clip (clip 2) = clip 2 ∧ (-1 ≤ (0 : ℚ) ∧ (0 : ℚ) ≤ 1) :=
  ⟨clipping_invariant.1 2,
   clipping_invariant.2.1 1 ⟨ChannelState.init, ChannelState.init, [], false⟩ 0 (by decide)⟩

/-- One channel pass preserves the output block's length. -/
lemma processChannel_length (frames : ℕ) (ch : ChannelState) (output : List ℚ)
    (h : output.length = frames) : (processChannel frames ch output).1.length = frames := by
  unfold processChannel
  split
  · simp [generate_square_wave, h]
  · exact h

/-- The callback's output block has exactly the requested length. -/
lemma audio_callback_length (frames : ℕ) (s : SysState) :
    (audio_callback frames s).1.length = frames := by
  show ((processChannel frames s.ch2
      (processChannel frames s.ch1 (List.replicate frames 0)).1).1.map clip).length = frames
  rw [List.length_map]
  exact processChannel_length _ _ _
    (processChannel_length _ _ _ (List.length_replicate _ _))

/-- C6.  Capture completeness: every render-callback invocation outputs
exactly `frames` samples and appends exactly `frames` samples to the capture
buffer, for every channel state (silent blocks included); hence after any
sequence of callback invocations the buffer length equals the previous
length plus the sum of all rendered block lengths. -/
theorem capture_completeness :
    (∀ (frames : ℕ) (s : SysState),
      (audio_callback frames s).1.length = frames ∧
      (audio_callback frames s).2.wav_buffer.length = s.wav_buffer.length + frames) ∧
    (∀ (blocks : List ℕ) (s : SysState),
      (run_callbacks blocks s).wav_buffer.length = s.wav_buffer.length + blocks.sum) := by
  have hone : ∀ (frames : ℕ) (s : SysState),
      (audio_callback frames s).2.wav_buffer.length = s.wav_buffer.length + frames := by
    intro frames s
    have hbuf : (audio_callback frames s).2.wav_buffer =
        s.wav_buffer ++ (audio_callback frames s).1 := rfl
    rw [hbuf, List.length_append, audio_callback_length]
  refine ⟨fun frames s => ⟨audio_callback_length frames s, hone frames s⟩, ?_⟩
  intro blocks
  induction blocks with
  | nil => intro s; simp [run_callbacks]
  | cons b bs ih =>
    intro s
    show (run_callbacks bs (audio_callback b s).2).wav_buffer.length = _
    rw [ih, hone, List.sum_cons]
    ring

/-- Truncation of a clipped-and-scaled sample stays within `±32767`. -/
lemma truncInt_clip_bounds (x : ℚ) :
    -32767 ≤ truncInt (clip x * 32767) ∧ truncInt (clip x * 32767) ≤ 32767 := by
  obtain ⟨h1, h2⟩ := clip_bounds x
  have hlo : (-32767 : ℚ) ≤ clip x * 32767 := by nlinarith
  have hhi : clip x * 32767 ≤ (32767 : ℚ) := by nlinarith
  unfold truncInt
  split
  · constructor
    · have h0 : (0 : ℤ) ≤ ⌊clip x * 32767⌋ := Int.floor_nonneg.2 (by assumption)
      omega
    · have : ⌊clip x * 32767⌋ ≤ ⌊(32767 : ℚ)⌋ := Int.floor_le_floor hhi
      simpa using this
  · rename_i hneg
    constructor
    · have : ⌈(-32767 : ℚ)⌉ ≤ ⌈clip x * 32767⌉ := Int.ceil_le_ceil hlo
      simpa using this
    · have h0 : ⌈clip x * 32767⌉ ≤ 0 :=
        Int.ceil_le.2 (by exact_mod_cast (le_of_lt (not_le.mp hneg)))
      omega

/-- `toInt16` is the identity on the 16-bit signed range. -/
lemma toInt16_eq_self {z : ℤ} (h1 : -32768 ≤ z) (h2 : z ≤ 32767) : toInt16 z = z := by
  unfold toInt16
  have : (z + 32768) % 65536 = z + 32768 := Int.emod_eq_of_lt (by omega) (by omega)
  omega

/-- The flush conversion never wraps: `toInt16` is the identity on every
scaled clipped sample. -/
lemma toInt16_truncInt_clip (x : ℚ) :
    toInt16 (truncInt (clip x * 32767)) = truncInt (clip x * 32767) :=
  toInt16_eq_self (by have := (truncInt_clip_bounds x).1; omega) (truncInt_clip_bounds x).2

/-- C7.  Flush behavior at shutdown: on a non-empty capture buffer, `flush`
clips every sample to `[-1, 1]`, scales by 32767, truncates to 16-bit signed
integers, and writes a single-channel waveform file at the configured sample
rate, reporting success; on an empty buffer it reports that no data was
recorded and writes no file. -/
theorem flush_behavior :
    flush [] = (none, "No audio data recorded") ∧
    ∀ (x : ℚ) (xs : List ℚ),
      flush (x :: xs) =
        (some ⟨SAMPLE_RATE, 1, (x :: xs).map (fun y => truncInt (clip y * 32767))⟩,
         "Audio saved to gameboy_audio.wav") := by
  refine ⟨rfl, fun x xs => ?_⟩
  unfold flush
  simp only [List.isEmpty_cons, if_false, Bool.false_eq_true]
  congr 1
  congr 2
  exact List.map_congr_left fun y _ => toInt16_truncInt_clip y

/-- C10.  No 16-bit overflow in flush: for every possible sample value, the
clipped value scaled by 32767 truncates into `[-32767, 32767]`, the 16-bit
conversion never wraps, and the file data produced by `flush` consists
exactly of the truncations of the scaled clipped values. -/
theorem no_int16_overflow :
    (∀ x : ℚ,
      -32767 ≤ truncInt (clip x * 32767) ∧ truncInt (clip x * 32767) ≤ 32767 ∧
      toInt16 (truncInt (clip x * 32767)) = truncInt (clip x * 32767)) ∧
    ∀ (x : ℚ) (xs : List ℚ),
      ((flush (x :: xs)).1).map WavFile.data =
        some ((x :: xs).map (fun y => truncInt (clip y * 32767))) := by
  constructor
  · intro x
    exact ⟨(truncInt_clip_bounds x).1, (truncInt_clip_bounds x).2, toInt16_truncInt_clip x⟩
  · intro x xs
    unfold flush
    simp only [List.isEmpty_cons, if_false, Bool.false_eq_true]
    have h : (x :: xs).map (fun y => toInt16 (truncInt (clip y * 32767))) =
        (x :: xs).map (fun y => truncInt (clip y * 32767)) :=
      List.map_congr_left fun y _ => toInt16_truncInt_clip y
    rw [h]
    rfl

/-- C3.  Press handling: for every key-down event whose key is in a
channel's note map, the handler sets that channel's `active` flag to `true`
and its `frequency` to the mapped value, leaving `phase` untouched.  The
equations hold for every prior channel state, so a second mapped key pressed
while another is held simply overwrites `frequency` (last-writer-wins) and
`active` remains `true`.  Stated for `handle_key_event` (`gb.py`) and both
channel branches of `on_press` (`2gb.py`). -/
theorem press_sets_channel :
    (∀ (notes : NoteMap) (ev : KeyEvent) (ch : ChannelState) (f : ℚ),
      ev.event_type = EventType.down → lookupNote notes ev.name = some f →
      handle_key_event notes ev ch = { ch with active := true, frequency := f }) ∧
    (∀ (c : String) (s : SysState) (f : ℚ),
      lookupNote CHANNEL1_NOTES (lowerStr c) = some f →
      on_press (PKey.char c) s =
        { s with ch1 := { s.ch1 with active := true, frequency := f } }) ∧
    (∀ (c : String) (s : SysState) (f : ℚ),
      lookupNote CHANNEL1_NOTES (lowerStr c) = none →
      lookupNote CHANNEL2_NOTES (lowerStr c) = some f →
      on_press (PKey.char c) s =
        { s with ch2 := { s.ch2 with active := true, frequency := f } }) := by
  refine ⟨?_, ?_, ?_⟩
  · rintro notes ⟨et, nm⟩ ch f het hlk
    cases et with
    | down => simp only [handle_key_event] at hlk ⊢; rw [hlk]
    | up => exact absurd het (by simp)
  · intro c s f h1
    simp only [on_press]
    rw [h1]
  · intro c s f h1 h2
    simp only [on_press]
    rw [h1, h2]

/-- Witness for C3: pressing `a` on a fresh channel / fresh system, and `z`
for the second channel. -/
theorem press_sets_channel_witness :
    handle_key_event CHANNEL1_NOTES ⟨EventType.down, "a"⟩ ChannelState.init =
      { ChannelState.init with active := true, frequency := 261.63 } ∧
    on_press (PKey.char "z") ⟨ChannelState.init, ChannelState.init, [], false⟩ =
      { ch1 := ChannelState.init,
        ch2 := { ChannelState.init with active := true, frequency := 523.25 },
        wav_buffer := [], quit_flag := false } :=
  ⟨press_sets_channel.1 CHANNEL1_NOTES ⟨EventType.down, "a"⟩ ChannelState.init 261.63 rfl rfl,
   press_sets_channel.2.2 "z" ⟨ChannelState.init, ChannelState.init, [], false⟩ 523.25
     rfl rfl⟩

/-- C4.  Release quirk: for every key-up event whose key is in a channel's
note map, the handler sets that channel's `active` flag to `false` — for
every prior state, in particular even when the released key is not the one
whose frequency is currently stored — and consequently that channel's pass
in the render callback leaves the output block unchanged (contributes
all-zero samples).  Stated for `handle_key_event` (`gb.py`) and both channel
branches of `on_release` (`2gb.py`). -/
theorem release_silences_channel :
    (∀ (notes : NoteMap) (ev : KeyEvent) (ch : ChannelState),
      ev.event_type = EventType.up → (lookupNote notes ev.name).isSome = true →
      handle_key_event notes ev ch = { ch with active := false } ∧
      ∀ (frames : ℕ) (output : List ℚ),
        processChannel frames (handle_key_event notes ev ch) output =
          (output, handle_key_event notes ev ch)) ∧
    (∀ (c : String) (s : SysState),
      (lookupNote CHANNEL1_NOTES (lowerStr c)).isSome = true →
      (on_release (PKey.char c) s).ch1 = { s.ch1 with active := false } ∧
      ∀ (frames : ℕ) (output : List ℚ),
        processChannel frames ((on_release (PKey.char c) s).ch1) output =
          (output, (on_release (PKey.char c) s).ch1)) ∧
    (∀ (c : String) (s : SysState),
      (lookupNote CHANNEL1_NOTES (lowerStr c)).isSome = false →
      (lookupNote CHANNEL2_NOTES (lowerStr c)).isSome = true →
      (on_release (PKey.char c) s).ch2 = { s.ch2 with active := false } ∧
      ∀ (frames : ℕ) (output : List ℚ),
        processChannel frames ((on_release (PKey.char c) s).ch2) output =
          (output, (on_release (PKey.char c) s).ch2)) := by
  have hsilent : ∀ (ch : ChannelState) (frames : ℕ) (output : List ℚ),
      processChannel frames { ch with active := false } output =
        (output, { ch with active := false }) := by
    intro ch frames output
    unfold processChannel
    simp
  refine ⟨?_, ?_, ?_⟩
  · rintro notes ⟨et, nm⟩ ch het hlk
    cases et with
    | down => exact absurd het (by simp)
    | up =>
      have h : handle_key_event notes ⟨EventType.up, nm⟩ ch = { ch with active := false } := by
        simp only [handle_key_event] at hlk ⊢
        rw [if_pos hlk]
      exact ⟨h, fun frames output => by rw [h]; exact hsilent ch frames output⟩
  · intro c s h1
    have h : (on_release (PKey.char c) s).ch1 = { s.ch1 with active := false } := by
      simp only [on_release]
      rw [if_pos h1]
    exact ⟨h, fun frames output => by rw [h]; exact hsilent s.ch1 frames output⟩
  · intro c s h1 h2
    have h : (on_release (PKey.char c) s).ch2 = { s.ch2 with active := false } := by
      simp only [on_release]
      rw [if_neg (by simp [h1]), if_pos h2]
    exact ⟨h, fun frames output => by rw [h]; exact hsilent s.ch2 frames output⟩

/-- Witness for C4: releasing `s` on a channel currently sounding the note
of key `a` (stored frequency 261.63) still silences the channel, and its
render pass leaves a two-sample output block unchanged. -/
theorem release_silences_channel_witness :
    handle_key_event CHANNEL1_NOTES ⟨EventType.up, "s"⟩ ⟨true, 261.63, 1/4⟩ =
      { active := false, frequency := 261.63, phase := 1/4 } ∧
    processChannel 2 (handle_key_event CHANNEL1_NOTES ⟨EventType.up, "s"⟩ ⟨true, 261.63, 1/4⟩)
        [0, 0] =
      ([0, 0], handle_key_event CHANNEL1_NOTES ⟨EventType.up, "s"⟩ ⟨true, 261.63, 1/4⟩) :=
  ⟨(release_silences_channel.1 CHANNEL1_NOTES ⟨EventType.up, "s"⟩ ⟨true, 261.63, 1/4⟩
      rfl rfl).1,
   (release_silences_channel.1 CHANNEL1_NOTES ⟨EventType.up, "s"⟩ ⟨true, 261.63, 1/4⟩
      rfl rfl).2 2 [0, 0]⟩

/-- C8.  Frame property of the event handlers: a key present in neither note
map (the quit key included) changes no field of any channel state —
`handle_key_event` returns the channel unchanged, `on_press` / `on_release`
leave both channels unchanged (the `q` path sets only `quit_flag`), and keys
without a `char` attribute change nothing. -/
theorem unmapped_keys_ignored :
    (∀ (notes : NoteMap) (ev : KeyEvent) (ch : ChannelState),
      lookupNote notes ev.name = none → handle_key_event notes ev ch = ch) ∧
    (∀ (c : String) (s : SysState),
      lookupNote CHANNEL1_NOTES (lowerStr c) = none →
      lookupNote CHANNEL2_NOTES (lowerStr c) = none →
      (on_press (PKey.char c) s).ch1 = s.ch1 ∧
      (on_press (PKey.char c) s).ch2 = s.ch2 ∧
      on_release (PKey.char c) s = s ∧
      (lowerStr c = "q" → on_press (PKey.char c) s = { s with quit_flag := true }) ∧
      (lowerStr c ≠ "q" → on_press (PKey.char c) s = s)) ∧
    (∀ s : SysState, on_press PKey.nochar s = s ∧ on_release PKey.nochar s = s) := by
  refine ⟨?_, ?_, fun s => ⟨rfl, rfl⟩⟩
  · rintro notes ⟨et, nm⟩ ch hlk
    cases et with
    | down => simp only [handle_key_event] at hlk ⊢; rw [hlk]
    | up => simp only [handle_key_event] at hlk ⊢; rw [if_neg (by simp [hlk])]
  · intro c s h1 h2
    have hpress : on_press (PKey.char c) s =
        if lowerStr c = "q" then { s with quit_flag := true } else s := by
      simp only [on_press]
      rw [h1, h2]
    have hrel : on_release (PKey.char c) s = s := by
      simp only [on_release]
      rw [if_neg (by simp [h1]), if_neg (by simp [h2])]
    refine ⟨?_, ?_, hrel, ?_, ?_⟩
    · rw [hpress]; split <;> rfl
    · rw [hpress]; split <;> rfl
    · intro hq; rw [hpress, if_pos hq]
    · intro hq; rw [hpress, if_neg hq]

/-- Witness for C8: an arrow-free unmapped key `p` for `gb.py`, and the quit
key `q` for `2gb.py`. -/
theorem unmapped_keys_ignored_witness :
    handle_key_event CHANNEL1_NOTES ⟨EventType.down, "p"⟩ ChannelState.init =
      ChannelState.init ∧
    on_press (PKey.char "q") ⟨ChannelState.init, ChannelState.init, [], false⟩ =
      { ch1 := ChannelState.init, ch2 := ChannelState.init,
        wav_buffer := [], quit_flag := true } :=
  ⟨unmapped_keys_ignored.1 CHANNEL1_NOTES ⟨EventType.down, "p"⟩ ChannelState.init rfl,
   (unmapped_keys_ignored.2.1 "q" ⟨ChannelState.init, ChannelState.init, [], false⟩
      rfl rfl).2.2.2.1 rfl⟩

/-- Reduction of the `i`-th sample phase: with the period split into `n`
equal steps, the fractional part of `φ + i/n` is `(j + r)/n`, where
`j = (⌊n·φ⌋ + i) mod n` runs over the residues and `r = fract (n·φ)` is the
fixed sub-step offset. -/
lemma fract_add_div (n : ℕ) (hn : 0 < n) (φ : ℚ) (i : ℕ) :
    Int.fract (φ + (i : ℚ) / n) =
      ((((⌊(n : ℚ) * φ⌋ + i) % (n : ℤ)).toNat : ℚ) + Int.fract ((n : ℚ) * φ)) / n := by
  have hnQ : (0 : ℚ) < n := by exact_mod_cast hn
  have hn0 : (n : ℚ) ≠ 0 := ne_of_gt hnQ
  have hnz : ((n : ℤ)) ≠ 0 := by exact_mod_cast hn.ne'
  have hnpos : (0 : ℤ) < (n : ℤ) := by exact_mod_cast hn
  have hmr : (↑⌊(n : ℚ) * φ⌋ : ℚ) + Int.fract ((n : ℚ) * φ) = (n : ℚ) * φ :=
    Int.floor_add_fract _
  have hdiv : (n : ℤ) * ((⌊(n : ℚ) * φ⌋ + i) / (n : ℤ)) + (⌊(n : ℚ) * φ⌋ + i) % (n : ℤ) =
      ⌊(n : ℚ) * φ⌋ + i := Int.ediv_add_emod _ _
  have hj0 : 0 ≤ (⌊(n : ℚ) * φ⌋ + i) % (n : ℤ) := Int.emod_nonneg _ hnz
  have hjn : (⌊(n : ℚ) * φ⌋ + i) % (n : ℤ) < n := Int.emod_lt_of_pos _ hnpos
  have hr0 : (0 : ℚ) ≤ Int.fract ((n : ℚ) * φ) := Int.fract_nonneg _
  have hr1 : Int.fract ((n : ℚ) * φ) < 1 := Int.fract_lt_one _
  set m : ℤ := ⌊(n : ℚ) * φ⌋
  set r : ℚ := Int.fract ((n : ℚ) * φ)
  set q : ℤ := (m + i) / (n : ℤ)
  set j : ℤ := (m + i) % (n : ℤ)
  have hjQ0 : (0 : ℚ) ≤ (j : ℚ) := by exact_mod_cast hj0
  have hjQn : (j : ℚ) + 1 ≤ (n : ℚ) := by exact_mod_cast hjn
  have hcast : (n : ℚ) * q + (j : ℚ) = (m : ℚ) + i := by exact_mod_cast hdiv
  have key : φ + (i : ℚ) / n = (q : ℚ) + ((j : ℚ) + r) / n := by
    have hmul : (φ + (i : ℚ) / n) * n = ((q : ℚ) + ((j : ℚ) + r) / n) * n := by
      field_simp
      linarith [hmr, hcast]
    exact mul_right_cancel₀ hn0 hmul
  rw [key, Int.fract_int_add]
  have hfix : Int.fract (((j : ℚ) + r) / n) = ((j : ℚ) + r) / n := by
    rw [Int.fract_eq_self]
    refine ⟨div_nonneg (by linarith) hnQ.le, ?_⟩
    rw [div_lt_one hnQ]
    linarith
  rw [hfix]
  have htn : ((j.toNat : ℕ) : ℚ) = (j : ℚ) := by exact_mod_cast Int.toNat_of_nonneg hj0
  rw [htn]

/-- Counting a property of `(m + i) mod n` over a full residue cycle is the
same as counting the property itself: `i ↦ (m + i) mod n` permutes
`range n`. -/
lemma card_filter_emod_shift (n : ℕ) (hn : 0 < n) (m : ℤ) (p : ℕ → Prop)
    [DecidablePred p] :
    ((Finset.range n).filter (fun i : ℕ => p ((m + (i : ℤ)) % (n : ℤ)).toNat)).card =
      ((Finset.range n).filter p).card := by
  have hnz : ((n : ℤ)) ≠ 0 := by exact_mod_cast hn.ne'
  have hnpos : (0 : ℤ) < (n : ℤ) := by exact_mod_cast hn
  refine Finset.card_nbij' (fun i : ℕ => ((m + (i : ℤ)) % (n : ℤ)).toNat)
    (fun j : ℕ => (((j : ℤ) - m) % (n : ℤ)).toNat) ?_ ?_ ?_ ?_
  · intro a ha
    simp only [Finset.mem_filter, Finset.mem_range] at ha ⊢
    have h0 := Int.emod_nonneg (m + (a : ℤ)) hnz
    have h1 := Int.emod_lt_of_pos (m + (a : ℤ)) hnpos
    exact ⟨by omega, ha.2⟩
  · intro b hb
    simp only [Finset.mem_filter, Finset.mem_range] at hb ⊢
    have h0 := Int.emod_nonneg ((b : ℤ) - m) hnz
    have h1 := Int.emod_lt_of_pos ((b : ℤ) - m) hnpos
    have hkey : (m + (((((b : ℤ) - m) % (n : ℤ)).toNat : ℕ) : ℤ)) % (n : ℤ) = (b : ℤ) := by
      rw [Int.toNat_of_nonneg h0, Int.add_emod, Int.emod_emod_of_dvd _ dvd_rfl,
        ← Int.add_emod, show m + ((b : ℤ) - m) = (b : ℤ) from by ring]
      exact Int.emod_eq_of_lt (by positivity) (by exact_mod_cast hb.1)
    refine ⟨by omega, ?_⟩
    rw [hkey]
    simpa using hb.2
  · intro a ha
    simp only [Finset.mem_filter, Finset.mem_range] at ha
    show ((((((m + (a : ℤ)) % (n : ℤ)).toNat : ℕ) : ℤ) - m) % (n : ℤ)).toNat = a
    have h0 := Int.emod_nonneg (m + (a : ℤ)) hnz
    have hkey : ((((((m + (a : ℤ)) % (n : ℤ)).toNat : ℕ) : ℤ)) - m) % (n : ℤ) = (a : ℤ) := by
      rw [Int.toNat_of_nonneg h0, Int.sub_emod, Int.emod_emod_of_dvd _ dvd_rfl,
        ← Int.sub_emod, show m + (a : ℤ) - m = (a : ℤ) from by ring]
      exact Int.emod_eq_of_lt (by positivity) (by exact_mod_cast ha.1)
    rw [hkey]
    simp
  · intro b hb
    simp only [Finset.mem_filter, Finset.mem_range] at hb
    show ((m + ((((((b : ℤ) - m) % (n : ℤ)).toNat : ℕ) : ℤ))) % (n : ℤ)).toNat = b
    have h0 := Int.emod_nonneg ((b : ℤ) - m) hnz
    have hkey : (m + (((((b : ℤ) - m) % (n : ℤ)).toNat : ℕ) : ℤ)) % (n : ℤ) = (b : ℤ) := by
      rw [Int.toNat_of_nonneg h0, Int.add_emod, Int.emod_emod_of_dvd _ dvd_rfl,
        ← Int.add_emod, show m + ((b : ℤ) - m) = (b : ℤ) from by ring]
      exact Int.emod_eq_of_lt (by positivity) (by exact_mod_cast hb.1)
    rw [hkey]
    simp

/-- Initial-segment filter of `range n`. -/
lemma filter_lt_card (n K : ℕ) (hK : K ≤ n) :
    ((Finset.range n).filter (fun j => j < K)).card = K := by
  have h : (Finset.range n).filter (fun j => j < K) = Finset.range K := by
    ext j
    simp only [Finset.mem_filter, Finset.mem_range]
    omega
  rw [h, Finset.card_range]

/-- Counting the residues `j < n` whose sub-step-shifted position lies in the
first half of the cycle: exactly `⌈n/2⌉` of them when the offset is below
half a step, `⌊n/2⌋` otherwise. -/
lemma card_filter_half (n : ℕ) (hn : 0 < n) (r : ℚ) (hr0 : 0 ≤ r) (hr1 : r < 1) :
    ((Finset.range n).filter (fun j : ℕ => 2 * (j : ℚ) + 2 * r < n)).card =
      if 2 * r < 1 then (n + 1) / 2 else n / 2 := by
  have hiff : ∀ j : ℕ, (2 * (j : ℚ) + 2 * r < n) ↔
      j < (if 2 * r < 1 then (n + 1) / 2 else n / 2) := by
    intro j
    by_cases hb : 2 * r < 1
    · rw [if_pos hb]
      constructor
      · intro h
        have h2 : 2 * (j : ℚ) < n := by linarith
        have h3 : 2 * j < n := by exact_mod_cast h2
        omega
      · intro h
        have h2 : 2 * j + 1 ≤ n := by omega
        have h3 : 2 * (j : ℚ) + 1 ≤ n := by exact_mod_cast h2
        linarith
    · rw [if_neg hb]
      have hb2 : (1 : ℚ) ≤ 2 * r := not_lt.mp hb
      constructor
      · intro h
        have h3 : 2 * (j : ℚ) + 1 < n := by linarith
        have h4 : 2 * j + 1 < n := by exact_mod_cast h3
        omega
      · intro h
        have h2 : 2 * j + 2 ≤ n := by omega
        have h3 : 2 * (j : ℚ) + 2 ≤ n := by exact_mod_cast h2
        linarith
  rw [Finset.filter_congr (fun j _ => hiff j), filter_lt_card]
  split <;> omega

/-- C9.  Duty cycle: for every fixed frequency `f > 0` and starting phase,
over the samples of `generate_square_wave` spanning one full waveform period
(`44100 / f` samples, assumed to be the whole number `n`), the number of
samples equal to `+0.5` and the number equal to `-0.5` partition the period
and differ by at most one sample from an exact 50/50 split. -/
theorem duty_cycle (f φ : ℚ) (n : ℕ) (hn : 0 < n) (hf : 0 < f)
    (hp : (n : ℚ) * f = 44100) :
    count_high f φ n + count_low f φ n = n ∧
    (count_high f φ n : ℤ) ≤ (count_low f φ n : ℤ) + 1 ∧
    (count_low f φ n : ℤ) ≤ (count_high f φ n : ℤ) + 1 := by
  have hf0 : f ≠ 0 := ne_of_gt hf
  have hnQ : (0 : ℚ) < n := by exact_mod_cast hn
  have hn0 : (n : ℚ) ≠ 0 := ne_of_gt hnQ
  have hδ : phase_increment f = 1 / n := by
    unfold phase_increment SAMPLE_RATE
    push_cast
    field_simp
    linarith [hp]
  have hr0 : (0 : ℚ) ≤ Int.fract ((n : ℚ) * φ) := Int.fract_nonneg _
  have hr1 : Int.fract ((n : ℚ) * φ) < 1 := Int.fract_lt_one _
  have hAne : AMPLITUDE ≠ -AMPLITUDE := by unfold AMPLITUDE; norm_num
  have hsq_high : ∀ i : ℕ, (squareSample f φ i = AMPLITUDE) ↔
      Int.fract (φ + (i : ℚ) / n) < 1/2 := by
    intro i
    unfold squareSample
    rw [hδ, show (i : ℚ) * (1 / n) = (i : ℚ) / n from by ring]
    by_cases hc : Int.fract (φ + (i : ℚ) / n) < 1/2
    · rw [if_pos hc]; exact iff_of_true rfl hc
    · rw [if_neg hc]; exact iff_of_false (fun h => hAne h.symm) hc
  have hsq_low : ∀ i : ℕ, (squareSample f φ i = -AMPLITUDE) ↔
      ¬ Int.fract (φ + (i : ℚ) / n) < 1/2 := by
    intro i
    unfold squareSample
    rw [hδ, show (i : ℚ) * (1 / n) = (i : ℚ) / n from by ring]
    by_cases hc : Int.fract (φ + (i : ℚ) / n) < 1/2
    · rw [if_pos hc]; exact iff_of_false (fun h => hAne h) (not_not_intro hc)
    · rw [if_neg hc]; exact iff_of_true rfl hc
  have hhigh_card : count_high f φ n =
      ((Finset.range n).filter (fun i : ℕ => Int.fract (φ + (i : ℚ) / n) < 1/2)).card := by
    unfold count_high
    rw [generate_square_wave_fst, List.countP_map]
    rw [List.countP_congr (q := fun i : ℕ => decide (Int.fract (φ + (i : ℚ) / n) < 1/2))
      (fun i _ => by simpa using hsq_high i)]
    rw [show (List.range n).countP
        (fun i : ℕ => decide (Int.fract (φ + (i : ℚ) / n) < 1/2)) =
        Nat.count (fun i : ℕ => Int.fract (φ + (i : ℚ) / n) < 1/2) n from rfl]
    exact Nat.count_eq_card_filter_range _ n
  have hlow_card : count_low f φ n =
      ((Finset.range n).filter
        (fun i : ℕ => ¬ Int.fract (φ + (i : ℚ) / n) < 1/2)).card := by
    unfold count_low
    rw [generate_square_wave_fst, List.countP_map]
    rw [List.countP_congr (q := fun i : ℕ => decide (¬ Int.fract (φ + (i : ℚ) / n) < 1/2))
      (fun i _ => by simpa using hsq_low i)]
    rw [show (List.range n).countP
        (fun i : ℕ => decide (¬ Int.fract (φ + (i : ℚ) / n) < 1/2)) =
        Nat.count (fun i : ℕ => ¬ Int.fract (φ + (i : ℚ) / n) < 1/2) n from rfl]
    exact Nat.count_eq_card_filter_range _ n
  have hsum : count_high f φ n + count_low f φ n = n := by
    rw [hhigh_card, hlow_card,
      Finset.filter_card_add_filter_neg_card_eq_card
        (fun i : ℕ => Int.fract (φ + (i : ℚ) / n) < 1/2),
      Finset.card_range]
  have hcond : ∀ i : ℕ, (Int.fract (φ + (i : ℚ) / n) < 1/2) ↔
      2 * (((((⌊(n : ℚ) * φ⌋ + (i : ℤ)) % (n : ℤ)).toNat : ℕ)) : ℚ) +
        2 * Int.fract ((n : ℚ) * φ) < n := by
    intro i
    rw [fract_add_div n hn φ i, div_lt_iff₀ hnQ]
    constructor <;> intro h <;> linarith
  have hhigh : count_high f φ n =
      if 2 * Int.fract ((n : ℚ) * φ) < 1 then (n + 1) / 2 else n / 2 := by
    rw [hhigh_card, Finset.filter_congr (fun i _ => hcond i),
      card_filter_emod_shift n hn ⌊(n : ℚ) * φ⌋
        (fun j : ℕ => 2 * (j : ℚ) + 2 * Int.fract ((n : ℚ) * φ) < n),
      card_filter_half n hn _ hr0 hr1]
  refine ⟨hsum, ?_, ?_⟩ <;>
    · by_cases hb : 2 * Int.fract ((n : ℚ) * φ) < 1
      · rw [if_pos hb] at hhigh; omega
      · rw [if_neg hb] at hhigh; omega

/-- Witness for C9 at `f = 441`, `φ = 1/3`, period `n = 100` samples. -/
theorem duty_cycle_witness :
    count_high 441 (1/3) 100 + count_low 441 (1/3) 100 = 100 ∧
    (count_high 441 (1/3) 100 : ℤ) ≤ (count_low 441 (1/3) 100 : ℤ) + 1 ∧
    (count_low 441 (1/3) 100 : ℤ) ≤ (count_high 441 (1/3) 100 : ℤ) + 1 :=
  duty_cycle 441 (1/3) 100 (by norm_num) (by norm_num) (by norm_num)

end GB
